import Mathlib

set_option linter.unusedVariables false

namespace Flloat

/-- Reserved end-of-trace symbol. Modelled from the spec: the reserved alphabet
symbol LAST (Symbols.LTLf_LAST in flloat/base/Symbols.py, a file not under src)
denotes that the current position is the last of the trace. -/
def LAST : String := "LAST"

/-- A propositional interpretation (PLInterpretation, flloat/semantics/pl.py, a
file not under src). Modelled from the spec: a finite set of symbols held true;
only membership is ever queried by the code under src, so it is modelled by a
list of symbols queried with List.contains. -/
abbrev Interp := List String

/-- PLFalseInterpretation: the all-false interpretation (empty symbol set). -/
def falseInterp : Interp := []

/-- Payload of an LTLfAtomic node (src/flloat/syntax/ltlf.py lines 59-97):
LTLfTrue wraps PLTrue, LTLfFalse wraps PLFalse, and a plain atomic formula
wraps PLAtomic(s) for a symbol s. -/
inductive PLAtom where
  | ptrue
  | pfalse
  | psym (s : String)
deriving DecidableEq

/-- The LTLf formula AST (src/flloat/syntax/ltlf.py). LTLfTrue and LTLfFalse
are subclasses of LTLfAtomic and appear as atom .ptrue and atom .pfalse.
Children of binary operators are kept as the stored tuple self.formulas.
LTLfImplies and LTLfEquivalence are not modelled: per the spec they desugar to
And, Or and Not before NNF and delta ever see them. -/
inductive LTLf where
  | atom (a : PLAtom)
  | not (f : LTLf)
  | and (fs : List LTLf)
  | or (fs : List LTLf)
  | next (f : LTLf)
  | weaknext (f : LTLf)
  | until (fs : List LTLf)
  | release (fs : List LTLf)
  | eventually (f : LTLf)
  | always (f : LTLf)

/-- Output language of the _delta functions: a propositional formula whose
leaves are PLTrue, PLFalse, or an LTLf subformula used as a placeholder atom
(LTLfNext._delta returns self.f itself, src line 143). _delta only ever builds
PLTrue, PLFalse, PLAnd, PLOr and bare LTLf subformulas, so only these variants
are needed. -/
inductive DeltaF where
  | PLTrue
  | PLFalse
  | PLAnd (l : List DeltaF)
  | PLOr (l : List DeltaF)
  | PLForm (f : LTLf)

/-- Truth of an atomic payload under an interpretation. Modelled from the spec
(section 4.B, pl.py is not under src): standard Boolean evaluation; PLTrue is
true, PLFalse is false, an atomic symbol is true iff it belongs to I. -/
def atomTruth : PLAtom → Interp → Bool
  | .ptrue, _ => true
  | .pfalse, _ => false
  | .psym s, i => i.contains s

/-- LTLfAtomic._delta (src/flloat/syntax/ltlf.py lines 78-81): PLFalse when
epsilon, otherwise PLTrue iff the payload holds under i. -/
def atomDelta (a : PLAtom) (i : Interp) (ε : Bool) : DeltaF :=
  if ε then .PLFalse else (if atomTruth a i then .PLTrue else .PLFalse)

/-- Body of LTLfNext._delta (src/flloat/syntax/ltlf.py lines 139-143): PLFalse
when epsilon, else the operand itself as a placeholder unless LAST is in i, in
which case PLFalse. Factored out because LTLfUntil._delta and friends invoke
LTLfNext(self)._delta, which never recurses into its operand. -/
def nextDelta (f : LTLf) (i : Interp) (ε : Bool) : DeltaF :=
  if ε then .PLFalse else (if i.contains LAST then .PLFalse else .PLForm f)

/-- Body of LTLfWeakNext._delta (src/flloat/syntax/ltlf.py lines 156-160):
PLTrue when epsilon, else the operand itself unless LAST is in i, in which
case PLTrue. -/
def weakNextDelta (f : LTLf) (i : Interp) (ε : Bool) : DeltaF :=
  if ε then .PLTrue else (if i.contains LAST then .PLTrue else .PLForm f)

/-- Second operand f2 of LTLfUntil._delta and LTLfUntil.truth
(src/flloat/syntax/ltlf.py lines 174 and 179): LTLfUntil(self.formulas[1:])
when len(self.formulas) > 2, else self.formulas[1]. Here the node is
until (f1 :: f2 :: rest), so the remaining children are f2 :: rest. -/
def untilTail (f2 : LTLf) (rest : List LTLf) : LTLf :=
  match rest with
  | [] => f2
  | r :: rs => .until (f2 :: r :: rs)

/-- Second operand f2 of LTLfRelease._delta (src/flloat/syntax/ltlf.py line
219): LTLfRelease(self.formulas[1:]) when len(self.formulas) > 2, else
self.formulas[1]. -/
def releaseTail (f2 : LTLf) (rest : List LTLf) : LTLf :=
  match rest with
  | [] => f2
  | r :: rs => .release (f2 :: r :: rs)

mutual

/-- The _delta methods of src/flloat/syntax/ltlf.py, assembled over the AST.
Python exceptions are modelled as none: LTLfNot._delta (lines 102-107) raises
unless its operand is an LTLfAtomic, and LTLfUntil/LTLfRelease._delta index
self.formulas so fewer than two children (impossible by the BinaryOperator
construction assert, src/flloat/base/Formula.py line 67) is also none.
The until/release second operand ff2 is Until/Release of the remaining
children when more than one remains (len(self.formulas) > 2), else the single
remaining child (lines 177-186 and 217-226); both combine it with
LTLfNext(self)._delta, written via nextDelta. -/
def LTLfDelta : LTLf → Interp → Bool → Option DeltaF
  | .atom a, i, ε => some (atomDelta a i ε)
  | .not (.atom a), i, ε =>
      some (match atomDelta a i ε with
            | .PLFalse => .PLTrue
            | _ => .PLFalse)
  | .not _, _, _ => none
  | .and fs, i, ε =>
      match LTLfDeltaList fs i ε with
      | none => none
      | some ds => some (.PLAnd ds)
  | .or fs, i, ε =>
      match LTLfDeltaList fs i ε with
      | none => none
      | some ds => some (.PLOr ds)
  | .next f, i, ε => some (nextDelta f i ε)
  | .weaknext f, i, ε => some (weakNextDelta f i ε)
  | .until (f1 :: f2 :: rest), i, ε =>
      match LTLfDelta (untilTail f2 rest) i ε with
      | none => none
      | some d2 =>
        match LTLfDelta f1 i ε with
        | none => none
        | some d1 =>
            some (.PLOr [d2, .PLAnd [d1, nextDelta (.until (f1 :: f2 :: rest)) i ε]])
  | .until _, _, _ => none
  | .release (f1 :: f2 :: rest), i, ε =>
      match LTLfDelta (releaseTail f2 rest) i ε with
      | none => none
      | some d2 =>
        match LTLfDelta f1 i ε with
        | none => none
        | some d1 =>
            some (.PLAnd [d2, .PLOr [d1, nextDelta (.release (f1 :: f2 :: rest)) i ε]])
  | .release _, _, _ => none
  | .eventually f, i, ε =>
      match LTLfDelta f i ε with
      | none => none
      | some d => some (.PLOr [d, nextDelta (.eventually f) i ε])
  | .always f, i, ε =>
      match LTLfDelta f i ε with
      | none => none
      | some d => some (.PLAnd [d, weakNextDelta (.always f) i ε])
termination_by f _ _ => sizeOf f
decreasing_by all_goals ((try cases rest) <;> simp [untilTail, releaseTail] <;> omega)

/-- Left-to-right sequencing of _delta over a child list, as the Python list
comprehensions in LTLfAnd._delta and LTLfOr._delta (src lines 111-118) do;
a raised exception in any child propagates (none). -/
def LTLfDeltaList : List LTLf → Interp → Bool → Option (List DeltaF)
  | [], _, _ => some []
  | f :: fs, i, ε =>
      match LTLfDelta f i ε with
      | none => none
      | some d =>
        match LTLfDeltaList fs i ε with
        | none => none
        | some ds => some (d :: ds)
termination_by fs _ _ => sizeOf fs

end

mutual

/-- The to_nnf rewriter. LTLfAtomic.to_nnf returns self and LTLfUntil.to_nnf
maps to_nnf over its children (src/flloat/syntax/ltlf.py lines 72-73 and
166-167). The remaining cases live in flloat/base/nnf.py and
flloat/base/convertible.py, files not under src. Modelled from the spec
(section 4.D): negation is pushed to atoms via negNNF, and Eventually and
Always are expanded to their base forms before rewriting, with
Eventually psi equivalent to Until [True, psi] and Always psi equivalent to
Not Eventually Not psi, whose rewriting yields Release [Not True, psi']. -/
def toNNF : LTLf → LTLf
  | .atom a => .atom a
  | .not f => negNNF f
  | .and fs => .and (toNNFList fs)
  | .or fs => .or (toNNFList fs)
  | .next f => .next (toNNF f)
  | .weaknext f => .weaknext (toNNF f)
  | .until fs => .until (toNNFList fs)
  | .release fs => .release (toNNFList fs)
  | .eventually f => .until [.atom .ptrue, toNNF f]
  | .always f => .release [.not (.atom .ptrue), toNNF f]

/-- to_nnf of a negated formula, following the rewrite rules of spec section
4.D: Not(Atomic) is terminal, double negation cancels, And/Or and
Until/Release and Next/WeakNext dualize with the negation pushed inward, and
the derived operators are expanded first. Note that LTLfTrue is an LTLfAtomic
in the source, so Not(True) is terminal NNF. -/
def negNNF : LTLf → LTLf
  | .atom a => .not (.atom a)
  | .not f => toNNF f
  | .and fs => .or (negNNFList fs)
  | .or fs => .and (negNNFList fs)
  | .next f => .weaknext (negNNF f)
  | .weaknext f => .next (negNNF f)
  | .until fs => .release (negNNFList fs)
  | .release fs => .until (negNNFList fs)
  | .eventually f => .release [.not (.atom .ptrue), negNNF f]
  | .always f => .until [.atom .ptrue, negNNF f]

/-- to_nnf mapped over a child list. -/
def toNNFList : List LTLf → List LTLf
  | [] => []
  | f :: fs => toNNF f :: toNNFList fs

/-- to_nnf of Not mapped over a child list. -/
def negNNFList : List LTLf → List LTLf
  | [] => []
  | f :: fs => negNNF f :: negNNFList fs

end

mutual

/-- Boolean evaluation of a delta-output formula against an interpretation,
as PL truth (spec section 4.B, pl.py is not under src): standard evaluation,
with Python's short-circuiting all and any over child generators. Evaluating
a bare LTLf subformula placeholder raises in Python (an LTLf formula respects
a different truth signature) and is modelled as none. -/
def truthPL : DeltaF → Interp → Option Bool
  | .PLTrue, _ => some true
  | .PLFalse, _ => some false
  | .PLAnd l, i => truthPLAll l i
  | .PLOr l, i => truthPLAny l i
  | .PLForm _, _ => none

/-- Short-circuiting conjunction over a list of delta-output formulas. -/
def truthPLAll : List DeltaF → Interp → Option Bool
  | [], _ => some true
  | d :: ds, i =>
      match truthPL d i with
      | none => none
      | some false => some false
      | some true => truthPLAll ds i

/-- Short-circuiting disjunction over a list of delta-output formulas. -/
def truthPLAny : List DeltaF → Interp → Option Bool
  | [], _ => some false
  | d :: ds, i =>
      match truthPL d i with
      | none => none
      | some true => some true
      | some false => truthPLAny ds i

end

mutual

/-- A delta-output formula is ground when it holds no LTLf subformula
placeholder: only PLTrue, PLFalse, PLAnd, PLOr. -/
def isGround : DeltaF → Bool
  | .PLTrue => true
  | .PLFalse => true
  | .PLAnd l => isGroundList l
  | .PLOr l => isGroundList l
  | .PLForm _ => false

/-- Groundness of every member of a list. -/
def isGroundList : List DeltaF → Bool
  | [] => true
  | d :: ds => isGround d && isGroundList ds

end

mutual

/-- Evaluation of a ground delta-output formula, with the same short-circuit
order as truthPL; the placeholder case is junk (never reached on ground
formulas). -/
def groundEval : DeltaF → Bool
  | .PLTrue => true
  | .PLFalse => false
  | .PLAnd l => groundEvalAll l
  | .PLOr l => groundEvalAny l
  | .PLForm _ => false

/-- Short-circuiting conjunction for groundEval. -/
def groundEvalAll : List DeltaF → Bool
  | [] => true
  | d :: ds => if groundEval d then groundEvalAll ds else false

/-- Short-circuiting disjunction for groundEval. -/
def groundEvalAny : List DeltaF → Bool
  | [] => false
  | d :: ds => if groundEval d then true else groundEvalAny ds

end

/-- The public LTLfFormula.delta (src/flloat/syntax/ltlf.py lines 26-34):
normalize with to_nnf, run _delta, and when epsilon collapse the residual to
PLTrue or PLFalse by evaluating it against PLFalseInterpretation. A Python
exception anywhere is none. -/
def delta (φ : LTLf) (i : Interp) (ε : Bool) : Option DeltaF :=
  match LTLfDelta (toNNF φ) i ε with
  | none => none
  | some d =>
    if ε then
      match truthPL d falseInterp with
      | none => none
      | some b => some (if b then .PLTrue else .PLFalse)
    else some d

/-- LTLfFormula.delta with the collapse evaluated against an arbitrary
interpretation j instead of the PLFalseInterpretation the code fixes; used to
state that the collapsed Boolean does not depend on that choice. -/
def deltaCollapse (j : Interp) (φ : LTLf) (i : Interp) (ε : Bool) : Option DeltaF :=
  match LTLfDelta (toNNF φ) i ε with
  | none => none
  | some d =>
    if ε then
      match truthPL d j with
      | none => none
      | some b => some (if b then .PLTrue else .PLFalse)
    else some d

mutual

/-- Constructibility of a formula in the source: every BinaryOperator node
carries at least two children (the assert in BinaryOperator.__init__,
src/flloat/base/Formula.py line 67). -/
def wfB : LTLf → Bool
  | .atom _ => true
  | .not f => wfB f
  | .and fs => decide (2 ≤ fs.length) && wfList fs
  | .or fs => decide (2 ≤ fs.length) && wfList fs
  | .next f => wfB f
  | .weaknext f => wfB f
  | .until fs => decide (2 ≤ fs.length) && wfList fs
  | .release fs => decide (2 ≤ fs.length) && wfList fs
  | .eventually f => wfB f
  | .always f => wfB f

/-- Constructibility of every member of a child list. -/
def wfList : List LTLf → Bool
  | [] => true
  | f :: fs => wfB f && wfList fs

end

mutual

/-- Formulas on which _delta cannot raise: negation only immediately above an
atomic, and every Until/Release node with at least two children. The image of
to_nnf on constructible formulas satisfies this. -/
def nnfWfB : LTLf → Bool
  | .atom _ => true
  | .not (.atom _) => true
  | .not _ => false
  | .and fs => nnfWfList fs
  | .or fs => nnfWfList fs
  | .next f => nnfWfB f
  | .weaknext f => nnfWfB f
  | .until fs => decide (2 ≤ fs.length) && nnfWfList fs
  | .release fs => decide (2 ≤ fs.length) && nnfWfList fs
  | .eventually f => nnfWfB f
  | .always f => nnfWfB f

/-- nnfWfB over every member of a child list. -/
def nnfWfList : List LTLf → Bool
  | [] => true
  | f :: fs => nnfWfB f && nnfWfList fs

end

/-- Whether a formula is an LTLfAtomic node (the isinstance test of
LTLfNot._delta, src/flloat/syntax/ltlf.py line 103; LTLfTrue and LTLfFalse
are subclasses of LTLfAtomic). -/
def isAtomicB : LTLf → Bool
  | .atom _ => true
  | _ => false

/-- A finite trace: the sequence of interpretations, one per position
(FiniteTrace, flloat/semantics/ldlf.py, a file not under src). -/
abbrev Trace := List Interp

/-- FiniteTrace.last: the index of the last position. Modelled from the spec
and from the claim wording: Next is true at pos only when pos is strictly
before the last position, so last is length minus one. -/
def lastPos (t : Trace) : Nat := t.length - 1

mutual

/-- Measure for the truth recursion: it must shrink both on the stored
subformulas and on the derived formulas LTLfWeakNext, LTLfRelease,
LTLfEventually and LTLfAlways rewrite themselves to. -/
def mm : LTLf → Nat
  | .atom _ => 0
  | .not f => mm f + 1
  | .and fs => mmList fs + 1
  | .or fs => mmList fs + 1
  | .next f => mm f + 1
  | .weaknext f => mm f + 1
  | .until fs => mmList fs + 1
  | .release fs => mmList fs + 1
  | .eventually f => mm f + 4
  | .always f => mm f + 5

/-- List part of the truth measure. -/
def mmList : List LTLf → Nat
  | [] => 0
  | f :: fs => mm f + 1 + mmList fs

end

mutual

/-- Finite-trace truth (ground-truth semantics). From src/flloat/syntax/ltlf.py:
LTLfAtomic.truth evaluates the payload at the letter of the current position
(lines 83-84; FiniteTrace.get is not under src and out-of-range access, which
raises in Python, is modelled by the empty letter); LTLfNext.truth is
pos < last and truth of the operand at pos + 1 (lines 136-137);
LTLfWeakNext.truth converts to Not(Next(Not f)) (lines 150-154), written here
with that conversion unfolded; LTLfUntil.truth quantifies a witness position j
between pos and last (lines 172-175). Not, And and Or truth live in
flloat/base/truths.py, not under src, modelled from the spec as standard.
LTLfRelease, LTLfEventually and LTLfAlways convert to Until via their
_convert (lines 193-194, 204-205, 214-215), unfolded here so that the
recursion shrinks: Release fs is Not(Until [Not f]), Eventually f is
Until [True, f], Always f is Not(Until [True, Not f]). -/
def truth : LTLf → Trace → Nat → Bool
  | .atom a, t, pos => atomTruth a (t.getD pos [])
  | .not f, t, pos => ! truth f t pos
  | .and fs, t, pos => truthAll fs t pos
  | .or fs, t, pos => truthAny fs t pos
  | .next f, t, pos => decide (pos < lastPos t) && truth f t (pos + 1)
  | .weaknext f, t, pos => ! (decide (pos < lastPos t) && ! truth f t (pos + 1))
  | .until (f1 :: f2 :: rest), t, pos =>
      (List.range' pos (lastPos t + 1 - pos)).any (fun j =>
        truth (match rest with | [] => f2 | r :: rs => LTLf.until (f2 :: r :: rs)) t j
          && (List.range' pos (j - pos)).all (fun k => truth f1 t k))
  | .until _, _, _ => false
  | .release (f1 :: f2 :: rest), t, pos =>
      ! (List.range' pos (lastPos t + 1 - pos)).any (fun j =>
        (! truth (match rest with | [] => f2 | r :: rs => LTLf.release (f2 :: r :: rs)) t j)
          && (List.range' pos (j - pos)).all (fun k => ! truth f1 t k))
  | .release _, _, _ => false
  | .eventually f, t, pos => truth (.until [.atom .ptrue, f]) t pos
  | .always f, t, pos => ! truth (.until [.atom .ptrue, .not f]) t pos
termination_by f t pos => mm f
decreasing_by all_goals ((try cases rest) <;> simp [mm, mmList] <;> omega)

/-- Conjunction of truth over a child list (AndTruth, spec-modelled). -/
def truthAll : List LTLf → Trace → Nat → Bool
  | [], _, _ => true
  | f :: fs, t, pos => truth f t pos && truthAll fs t pos
termination_by fs t pos => mmList fs
decreasing_by all_goals (simp [mm, mmList] <;> omega)

/-- Disjunction of truth over a child list (OrTruth, spec-modelled). -/
def truthAny : List LTLf → Trace → Nat → Bool
  | [], _, _ => false
  | f :: fs, t, pos => truth f t pos || truthAny fs t pos
termination_by fs t pos => mmList fs
decreasing_by all_goals (simp [mm, mmList] <;> omega)

end

/-- Labels contributed by an atomic payload. PLAtomic.find_labels yields its
own symbol, PLTrue and PLFalse none (pl.py is not under src; modelled from
the spec: find_labels yields the set of all atomic symbols appearing under
the formula). -/
def atomLabels : PLAtom → Finset String
  | .ptrue => ∅
  | .pfalse => ∅
  | .psym s => {s}

mutual

/-- find_labels. LTLfAtomic.find_labels delegates to the payload
(src/flloat/syntax/ltlf.py lines 86-87); the operator cases union their
children's labels (base-class code not under src, modelled from the spec). -/
def findLabels : LTLf → Finset String
  | .atom a => atomLabels a
  | .not f => findLabels f
  | .and fs => findLabelsList fs
  | .or fs => findLabelsList fs
  | .next f => findLabels f
  | .weaknext f => findLabels f
  | .until fs => findLabelsList fs
  | .release fs => findLabelsList fs
  | .eventually f => findLabels f
  | .always f => findLabels f

/-- Union of find_labels over a child list. -/
def findLabelsList : List LTLf → Finset String
  | [] => ∅
  | f :: fs => findLabels f ∪ findLabelsList fs

end

/-- The label set LTLfFormula.to_automaton hands the automaton builder in its
not-on-the-fly branch (src/flloat/syntax/ltlf.py lines 44-49): the code
evaluates labels.union with the singleton LAST. When the labels argument is
absent (None, the declared default) Python raises AttributeError on
None.union, modelled as none; no default to find_labels exists in the code. -/
def toAutomatonLabels (φ : LTLf) (labels : Option (Finset String)) :
    Option (Finset String) :=
  match labels with
  | some ls => some (ls ∪ {LAST})
  | none => none

/-- Model of the generic formula layer of src/flloat/base/Formula.py, the one
the LTLf classes import: an AtomicFormula wrapping a symbol, or a
CommutativeBinaryOperator node identified by the operator_symbol of its class
(two nodes are of the same Python type exactly when their tags agree) holding
the stored child tuple self.formulas. -/
inductive BF where
  | atom (s : String)
  | node (tag : String) (children : List BF)

/-- BinaryOperator._popup (src/flloat/base/Formula.py lines 77-87): children
of the same type as the parent are replaced by their own popped-up children,
recursively; others stay. -/
def popup (tag : String) : List BF → List BF
  | [] => []
  | .node u gs :: cs =>
      (if u = tag then popup tag gs else [BF.node u gs]) ++ popup tag cs
  | c :: cs => c :: popup tag cs
termination_by fs => sizeOf fs

/-- Construction of a commutative binary operator node
(BinaryOperator.__init__, src/flloat/base/Formula.py lines 66-69): the stored
child tuple is the popped-up input sequence. The assert that at least two
children are given is not modelled; the claims supply that many. -/
def mkNode (tag : String) (fs : List BF) : BF := .node tag (popup tag fs)

/-- The stored child tuple self.formulas of a node. -/
def childrenBF : BF → List BF
  | .atom _ => []
  | .node _ cs => cs

/-- Whether a formula is a node of the given operator class (the
type(child) == type(self) test of _popup). -/
def isTag (tag : String) : BF → Bool
  | .atom _ => false
  | .node u _ => u == tag

mutual

/-- Python equality of formulas (Formula.__eq__, src/flloat/base/Formula.py
lines 14-18): same type and equal _members(). For an AtomicFormula _members
is the symbol (line 30-31); for a CommutativeBinaryOperator with idempotence
it is the operator symbol together with frozenset(self.formulas) (lines
112-114), and frozensets compare as sets under element equality: mutual
containment. -/
def eqBF : BF → BF → Bool
  | .atom s, .atom u => s == u
  | .node s l1, .node u l2 => s == u && (subsetF l1 l2 && subsetF l2 l1)
  | _, _ => false
termination_by a b => sizeOf a + sizeOf b

/-- Containment of every member of the first list in the second, under eqBF. -/
def subsetF : List BF → List BF → Bool
  | [], _ => true
  | x :: xs, l => memF x l && subsetF xs l
termination_by l1 l2 => sizeOf l1 + sizeOf l2

/-- Membership under eqBF. -/
def memF : BF → List BF → Bool
  | _, [] => false
  | x, y :: ys => eqBF x y || memF x ys
termination_by a l => sizeOf a + sizeOf l

end

/-- String hashing; the consistency theorem only needs that equal strings hash
equally, which any function provides. -/
def strHash (s : String) : Nat :=
  s.foldl (fun a c => a * 131 + c.toNat) 7

mutual

/-- Python hash of a formula (Formula.__hash__, src/flloat/base/Formula.py
lines 20-21): the hash of _members(). The hash of the tuple is modelled as a
combination of the component hashes, and the hash of frozenset(self.formulas)
as a commutative, duplicate-insensitive combination of the member hashes:
the sum over the eqBF-distinct members (duplicates under eqBF contribute
once, as the frozenset stores one representative per equality class). -/
def hashBF : BF → Nat
  | .atom s => strHash s
  | .node tag l => strHash tag + 31 * setHashDedup l

/-- Sum of hashBF over the eqBF-distinct members of a list: a member with a
later eqBF-duplicate is skipped, so each equality class contributes one
representative, as in a frozenset. -/
def setHashDedup : List BF → Nat
  | [] => 0
  | x :: xs => if memF x xs then setHashDedup xs else hashBF x + setHashDedup xs

end

/-- Removal of every eqBF-duplicate of x from a list; proof-side device for
reasoning about setHashDedup. -/
def removeAllF (x : BF) (l : List BF) : List BF :=
  l.filter (fun y => ! eqBF x y)

/-! Theorems. One theorem per claim, preceded by shared helper lemmas. -/

/-- C1: the claim says to_automaton with labels absent builds over
find_labels with LAST added; the code instead evaluates None.union and
raises, so no label set is produced at all: the default-labels branch the
claim describes does not exist. -/
theorem to_automaton_none_labels_bug (φ : LTLf) :
    toAutomatonLabels φ none = none ∧
    ¬ toAutomatonLabels φ none = some (findLabels φ ∪ {LAST}) :=
  ⟨rfl, by simp [toAutomatonLabels]⟩

/-- C2: the claim says delta of LTLfTrue with epsilon true is PLTrue; the
code returns PLFalse, because LTLfTrue inherits LTLfAtomic._delta, whose
epsilon branch returns PLFalse unconditionally, and the public delta then
collapses that residual to PLFalse. -/
theorem ltlf_true_epsilon_delta_false (i : Interp) :
    LTLfDelta (.atom .ptrue) i true = some .PLFalse ∧
    delta (.atom .ptrue) i true = some .PLFalse := by
  constructor
  · simp [LTLfDelta, atomDelta]
  · simp [delta, toNNF, LTLfDelta, atomDelta, truthPL, falseInterp]

/-- C3, counterexample: the claim says delta of Not(Atomic a) with epsilon
true is PLFalse; at the concrete atom a and the empty interpretation the
code returns PLTrue, not PLFalse. -/
theorem not_atomic_epsilon_counterexample :
    LTLfDelta (.not (.atom (.psym "a"))) [] true = some .PLTrue ∧
    ¬ LTLfDelta (.not (.atom (.psym "a"))) [] true = some .PLFalse := by
  constructor
  · simp [LTLfDelta, atomDelta]
  · simp [LTLfDelta, atomDelta]

/-- C3, amended: for every atomic symbol a and every interpretation I, delta
of Not(Atomic a) with epsilon true is PLTrue: LTLfNot._delta returns the
dual of the atomic operand's epsilon result, which is PLFalse, so the
negation yields PLTrue; the public delta collapses it to PLTrue as well. -/
theorem not_atomic_epsilon_delta_true (s : String) (i : Interp) :
    LTLfDelta (.not (.atom (.psym s))) i true = some .PLTrue ∧
    delta (.not (.atom (.psym s))) i true = some .PLTrue := by
  constructor
  · simp [LTLfDelta, atomDelta]
  · simp [delta, toNNF, negNNF, LTLfDelta, atomDelta, truthPL, falseInterp]

/-- C5: for every formula psi and interpretation I, delta of Next psi with
epsilon false is psi when LAST is not in I and PLFalse otherwise, and delta
of WeakNext psi is psi when LAST is not in I and PLTrue otherwise; with
epsilon true they are PLFalse and PLTrue respectively. -/
theorem next_weaknext_delta_spec (ψ : LTLf) (i : Interp) :
    LTLfDelta (.next ψ) i false =
      some (if i.contains LAST then .PLFalse else .PLForm ψ) ∧
    LTLfDelta (.weaknext ψ) i false =
      some (if i.contains LAST then .PLTrue else .PLForm ψ) ∧
    LTLfDelta (.next ψ) i true = some .PLFalse ∧
    LTLfDelta (.weaknext ψ) i true = some .PLTrue := by
  refine ⟨?_, ?_, ?_, ?_⟩ <;> simp [LTLfDelta, nextDelta, weakNextDelta]

/-- C6: on an Until node with children f1 :: f2 :: rest (at least two),
_delta returns PLOr of the tail delta and PLAnd of the head delta with
delta of Next of the node itself, with the tail operand Until of the
remaining children when more than one remains and the single remaining
child otherwise; a Release node returns the dual PLAnd-of-PLOr form. -/
theorem until_release_delta_unfold (f1 f2 : LTLf) (rest : List LTLf)
    (i : Interp) (ε : Bool) (d2 d1 dn e2 e1 en : DeltaF) :
    (LTLfDelta (untilTail f2 rest) i ε = some d2 →
     LTLfDelta f1 i ε = some d1 →
     LTLfDelta (.next (.until (f1 :: f2 :: rest))) i ε = some dn →
     LTLfDelta (.until (f1 :: f2 :: rest)) i ε =
       some (.PLOr [d2, .PLAnd [d1, dn]])) ∧
    (LTLfDelta (releaseTail f2 rest) i ε = some e2 →
     LTLfDelta f1 i ε = some e1 →
     LTLfDelta (.next (.release (f1 :: f2 :: rest))) i ε = some en →
     LTLfDelta (.release (f1 :: f2 :: rest)) i ε =
       some (.PLAnd [e2, .PLOr [e1, en]])) := by
  constructor
  · intro h2 h1 hn
    have hn' : nextDelta (LTLf.until (f1 :: f2 :: rest)) i ε = dn := by
      simpa [LTLfDelta] using hn
    simp [LTLfDelta, h2, h1, hn']
  · intro h2 h1 hn
    have hn' : nextDelta (LTLf.release (f1 :: f2 :: rest)) i ε = en := by
      simpa [LTLfDelta] using hn
    simp [LTLfDelta, h2, h1, hn']

/-- C6, witness: the unfolding evaluated on the two-child Until and Release
of two atoms at the empty interpretation without epsilon. -/
theorem until_release_delta_unfold_witness :
    LTLfDelta (.until [.atom (.psym "a"), .atom (.psym "b")]) [] false =
      some (.PLOr [.PLFalse, .PLAnd [.PLFalse,
        .PLForm (.until [.atom (.psym "a"), .atom (.psym "b")])]]) ∧
    LTLfDelta (.release [.atom (.psym "a"), .atom (.psym "b")]) [] false =
      some (.PLAnd [.PLFalse, .PLOr [.PLFalse,
        .PLForm (.release [.atom (.psym "a"), .atom (.psym "b")])]]) := by
  have h := until_release_delta_unfold (.atom (.psym "a")) (.atom (.psym "b"))
      [] [] false .PLFalse .PLFalse
      (.PLForm (.until [.atom (.psym "a"), .atom (.psym "b")]))
      .PLFalse .PLFalse
      (.PLForm (.release [.atom (.psym "a"), .atom (.psym "b")]))
  exact ⟨h.1 (by simp [untilTail, LTLfDelta, atomDelta, atomTruth])
             (by simp [LTLfDelta, atomDelta, atomTruth])
             (by simp [LTLfDelta, nextDelta]),
         h.2 (by simp [releaseTail, LTLfDelta, atomDelta, atomTruth])
             (by simp [LTLfDelta, atomDelta, atomTruth])
             (by simp [LTLfDelta, nextDelta])⟩

/-- C7: _delta on an LTLfNot node raises (none) exactly when the operand is
not an LTLfAtomic, and on an atomic operand it returns PLTrue or PLFalse
without raising. -/
theorem not_delta_error_iff_nonatomic (f : LTLf) (i : Interp) (ε : Bool) :
    (LTLfDelta (.not f) i ε = none ↔ isAtomicB f = false) ∧
    (isAtomicB f = true →
      LTLfDelta (.not f) i ε = some .PLTrue ∨
      LTLfDelta (.not f) i ε = some .PLFalse) := by
  cases f
  case atom a =>
    constructor
    · simp [LTLfDelta, isAtomicB]
    · intro
      rcases ha : atomDelta a i ε with _ | _ | l | l | g <;>
        simp [LTLfDelta, ha]
  all_goals simp [LTLfDelta, isAtomicB]

/-- C7, witness: on the negation of a concrete atom the delta succeeds and
is one of the two constants. -/
theorem not_delta_error_iff_nonatomic_witness :
    LTLfDelta (.not (.atom (.psym "a"))) [] false = some .PLTrue ∨
    LTLfDelta (.not (.atom (.psym "a"))) [] false = some .PLFalse :=
  (not_delta_error_iff_nonatomic (.atom (.psym "a")) [] false).2 rfl

/-- C8: WeakNext of an atom is true at position 0 on the single-letter trace
containing that atom (accepted vacuously at end of trace), where WeakNext
truth is the truth of the conversion Not(Next(Not f)) and Next is true at
pos only when pos is strictly before the last position. -/
theorem weaknext_vacuous_at_end (s : String) (f : LTLf) (t : Trace) (pos : Nat) :
    truth (.weaknext f) t pos = truth (.not (.next (.not f))) t pos ∧
    truth (.next f) t pos = (decide (pos < lastPos t) && truth f t (pos + 1)) ∧
    truth (.weaknext (.atom (.psym s))) [[s]] 0 = true := by
  refine ⟨?_, ?_, ?_⟩
  · simp [truth]
  · simp [truth]
  · simp [truth, lastPos]

theorem nnfWfList_mem {fs : List LTLf} (h : nnfWfList fs = true) :
    ∀ f ∈ fs, nnfWfB f = true := by
  induction fs with
  | nil => simp
  | cons g gs ih =>
      simp only [nnfWfList, Bool.and_eq_true] at h
      intro f hf
      rcases List.mem_cons.1 hf with rfl | hf
      · exact h.1
      · exact ih h.2 f hf

theorem wfList_mem {fs : List LTLf} (h : wfList fs = true) :
    ∀ f ∈ fs, wfB f = true := by
  induction fs with
  | nil => simp
  | cons g gs ih =>
      simp only [wfList, Bool.and_eq_true] at h
      intro f hf
      rcases List.mem_cons.1 hf with rfl | hf
      · exact h.1
      · exact ih h.2 f hf

theorem toNNFList_length (fs : List LTLf) :
    (toNNFList fs).length = fs.length := by
  induction fs with
  | nil => simp [toNNFList]
  | cons f fs ih => simp [toNNFList, ih]

theorem negNNFList_length (fs : List LTLf) :
    (negNNFList fs).length = fs.length := by
  induction fs with
  | nil => simp [negNNFList]
  | cons f fs ih => simp [negNNFList, ih]

theorem nnfWfList_toNNFList {fs : List LTLf}
    (h : ∀ f ∈ fs, nnfWfB (toNNF f) = true) :
    nnfWfList (toNNFList fs) = true := by
  induction fs with
  | nil => simp [toNNFList, nnfWfList]
  | cons f fs ih =>
      simp only [toNNFList, nnfWfList, Bool.and_eq_true]
      exact ⟨h f (by simp), ih (fun g hg => h g (by simp [hg]))⟩

theorem nnfWfList_negNNFList {fs : List LTLf}
    (h : ∀ f ∈ fs, nnfWfB (negNNF f) = true) :
    nnfWfList (negNNFList fs) = true := by
  induction fs with
  | nil => simp [negNNFList, nnfWfList]
  | cons f fs ih =>
      simp only [negNNFList, nnfWfList, Bool.and_eq_true]
      exact ⟨h f (by simp), ih (fun g hg => h g (by simp [hg]))⟩

theorem toNNF_nnfWf : ∀ n φ, sizeOf φ < n → wfB φ = true →
    nnfWfB (toNNF φ) = true ∧ nnfWfB (negNNF φ) = true := by
  intro n
  induction n with
  | zero => intro φ h; exact absurd h (Nat.not_lt_zero _)
  | succ m ih =>
      intro φ hsz hwf
      cases φ with
      | atom a => simp [toNNF, negNNF, nnfWfB]
      | not f =>
          simp only [wfB] at hwf
          have hf := ih f (by simp at hsz ⊢; omega) hwf
          exact ⟨by simpa [toNNF] using hf.2, by simpa [negNNF] using hf.1⟩
      | and fs =>
          simp only [wfB, Bool.and_eq_true] at hwf
          have hm : ∀ f ∈ fs, nnfWfB (toNNF f) = true ∧ nnfWfB (negNNF f) = true := by
            intro f hf
            have : sizeOf f < sizeOf fs := List.sizeOf_lt_of_mem hf
            exact ih f (by simp at hsz; omega) (wfList_mem hwf.2 f hf)
          constructor
          · simpa [toNNF, nnfWfB] using nnfWfList_toNNFList (fun f hf => (hm f hf).1)
          · simpa [negNNF, nnfWfB] using nnfWfList_negNNFList (fun f hf => (hm f hf).2)
      | or fs =>
          simp only [wfB, Bool.and_eq_true] at hwf
          have hm : ∀ f ∈ fs, nnfWfB (toNNF f) = true ∧ nnfWfB (negNNF f) = true := by
            intro f hf
            have : sizeOf f < sizeOf fs := List.sizeOf_lt_of_mem hf
            exact ih f (by simp at hsz; omega) (wfList_mem hwf.2 f hf)
          constructor
          · simpa [toNNF, nnfWfB] using nnfWfList_toNNFList (fun f hf => (hm f hf).1)
          · simpa [negNNF, nnfWfB] using nnfWfList_negNNFList (fun f hf => (hm f hf).2)
      | next f =>
          simp only [wfB] at hwf
          have hf := ih f (by simp at hsz ⊢; omega) hwf
          exact ⟨by simpa [toNNF, nnfWfB] using hf.1, by simpa [negNNF, nnfWfB] using hf.2⟩
      | weaknext f =>
          simp only [wfB] at hwf
          have hf := ih f (by simp at hsz ⊢; omega) hwf
          exact ⟨by simpa [toNNF, nnfWfB] using hf.1, by simpa [negNNF, nnfWfB] using hf.2⟩
      | «until» fs =>
          simp only [wfB, Bool.and_eq_true] at hwf
          have hm : ∀ f ∈ fs, nnfWfB (toNNF f) = true ∧ nnfWfB (negNNF f) = true := by
            intro f hf
            have : sizeOf f < sizeOf fs := List.sizeOf_lt_of_mem hf
            exact ih f (by simp at hsz; omega) (wfList_mem hwf.2 f hf)
          have hlen := hwf.1
          constructor
          · simp only [toNNF, nnfWfB, Bool.and_eq_true]
            exact ⟨by simpa [toNNFList_length] using hlen,
                   nnfWfList_toNNFList (fun f hf => (hm f hf).1)⟩
          · simp only [negNNF, nnfWfB, Bool.and_eq_true]
            exact ⟨by simpa [negNNFList_length] using hlen,
                   nnfWfList_negNNFList (fun f hf => (hm f hf).2)⟩
      | release fs =>
          simp only [wfB, Bool.and_eq_true] at hwf
          have hm : ∀ f ∈ fs, nnfWfB (toNNF f) = true ∧ nnfWfB (negNNF f) = true := by
            intro f hf
            have : sizeOf f < sizeOf fs := List.sizeOf_lt_of_mem hf
            exact ih f (by simp at hsz; omega) (wfList_mem hwf.2 f hf)
          have hlen := hwf.1
          constructor
          · simp only [toNNF, nnfWfB, Bool.and_eq_true]
            exact ⟨by simpa [toNNFList_length] using hlen,
                   nnfWfList_toNNFList (fun f hf => (hm f hf).1)⟩
          · simp only [negNNF, nnfWfB, Bool.and_eq_true]
            exact ⟨by simpa [negNNFList_length] using hlen,
                   nnfWfList_negNNFList (fun f hf => (hm f hf).2)⟩
      | eventually f =>
          simp only [wfB] at hwf
          have hf := ih f (by simp at hsz ⊢; omega) hwf
          constructor
          · simp [toNNF, nnfWfB, nnfWfList, hf.1]
          · simp [negNNF, nnfWfB, nnfWfList, hf.2]
      | always f =>
          simp only [wfB] at hwf
          have hf := ih f (by simp at hsz ⊢; omega) hwf
          constructor
          · simp [toNNF, nnfWfB, nnfWfList, hf.1]
          · simp [negNNF, nnfWfB, nnfWfList, hf.2]

theorem nnfWfList_tail {f : LTLf} {fs : List LTLf}
    (h : nnfWfList (f :: fs) = true) :
    nnfWfB f = true ∧ nnfWfList fs = true := by
  simpa [nnfWfList, Bool.and_eq_true] using h

theorem LTLfDeltaList_ground (fs : List LTLf) (i : Interp)
    (h : ∀ f ∈ fs, ∃ d, LTLfDelta f i true = some d ∧ isGround d = true) :
    ∃ ds, LTLfDeltaList fs i true = some ds ∧ isGroundList ds = true := by
  induction fs with
  | nil => exact ⟨[], by simp [LTLfDeltaList], by simp [isGroundList]⟩
  | cons f fs ih =>
      obtain ⟨d, hd, hg⟩ := h f (by simp)
      obtain ⟨ds, hds, hgs⟩ := ih (fun g hg' => h g (by simp [hg']))
      exact ⟨d :: ds, by simp [LTLfDeltaList, hd, hds],
             by simp [isGroundList, hg, hgs]⟩

theorem delta_eps_ground : ∀ n φ, sizeOf φ < n → nnfWfB φ = true → ∀ i,
    ∃ d, LTLfDelta φ i true = some d ∧ isGround d = true := by
  intro n
  induction n with
  | zero => intro φ h; exact absurd h (Nat.not_lt_zero _)
  | succ m ih =>
      intro φ hsz hwf i
      cases φ with
      | atom a =>
          exact ⟨.PLFalse, by simp [LTLfDelta, atomDelta], by simp [isGround]⟩
      | not f =>
          cases f
          case atom a =>
            exact ⟨.PLTrue, by simp [LTLfDelta, atomDelta], by simp [isGround]⟩
          all_goals simp [nnfWfB] at hwf
      | and fs =>
          simp only [nnfWfB] at hwf
          obtain ⟨ds, hds, hgs⟩ := LTLfDeltaList_ground fs i (fun f hf => by
            have hs : sizeOf f < sizeOf fs := List.sizeOf_lt_of_mem hf
            exact ih f (by simp at hsz; omega) (nnfWfList_mem hwf f hf) i)
          exact ⟨.PLAnd ds, by simp [LTLfDelta, hds], by simp [isGround, hgs]⟩
      | or fs =>
          simp only [nnfWfB] at hwf
          obtain ⟨ds, hds, hgs⟩ := LTLfDeltaList_ground fs i (fun f hf => by
            have hs : sizeOf f < sizeOf fs := List.sizeOf_lt_of_mem hf
            exact ih f (by simp at hsz; omega) (nnfWfList_mem hwf f hf) i)
          exact ⟨.PLOr ds, by simp [LTLfDelta, hds], by simp [isGround, hgs]⟩
      | next f =>
          exact ⟨.PLFalse, by simp [LTLfDelta, nextDelta], by simp [isGround]⟩
      | weaknext f =>
          exact ⟨.PLTrue, by simp [LTLfDelta, weakNextDelta], by simp [isGround]⟩
      | «until» fs =>
          rcases fs with _ | ⟨f1, _ | ⟨f2, rest⟩⟩
          · simp [nnfWfB] at hwf
          · simp [nnfWfB, nnfWfList] at hwf
          · simp only [nnfWfB, Bool.and_eq_true] at hwf
            have h1 := nnfWfList_tail hwf.2
            have h2 := nnfWfList_tail h1.2
            obtain ⟨d1, hd1, hg1⟩ := ih f1 (by simp at hsz; omega) h1.1 i
            obtain ⟨d2, hd2, hg2⟩ :
                ∃ d, LTLfDelta (untilTail f2 rest) i true = some d ∧
                  isGround d = true := by
              cases rest with
              | nil =>
                  simpa [untilTail] using ih f2 (by simp at hsz; omega) h2.1 i
              | cons r rs =>
                  have hww : nnfWfB (.until (f2 :: r :: rs)) = true := by
                    simp only [nnfWfB, Bool.and_eq_true]
                    exact ⟨by simp, h1.2⟩
                  simpa [untilTail] using
                    ih (.until (f2 :: r :: rs)) (by simp at hsz ⊢; omega) hww i
            refine ⟨.PLOr [d2, .PLAnd [d1,
              nextDelta (.until (f1 :: f2 :: rest)) i true]], ?_, ?_⟩
            · simp [LTLfDelta, hd1, hd2]
            · simp [isGround, isGroundList, hg1, hg2, nextDelta]
      | release fs =>
          rcases fs with _ | ⟨f1, _ | ⟨f2, rest⟩⟩
          · simp [nnfWfB] at hwf
          · simp [nnfWfB, nnfWfList] at hwf
          · simp only [nnfWfB, Bool.and_eq_true] at hwf
            have h1 := nnfWfList_tail hwf.2
            have h2 := nnfWfList_tail h1.2
            obtain ⟨d1, hd1, hg1⟩ := ih f1 (by simp at hsz; omega) h1.1 i
            obtain ⟨d2, hd2, hg2⟩ :
                ∃ d, LTLfDelta (releaseTail f2 rest) i true = some d ∧
                  isGround d = true := by
              cases rest with
              | nil =>
                  simpa [releaseTail] using ih f2 (by simp at hsz; omega) h2.1 i
              | cons r rs =>
                  have hww : nnfWfB (.release (f2 :: r :: rs)) = true := by
                    simp only [nnfWfB, Bool.and_eq_true]
                    exact ⟨by simp, h1.2⟩
                  simpa [releaseTail] using
                    ih (.release (f2 :: r :: rs)) (by simp at hsz ⊢; omega) hww i
            refine ⟨.PLAnd [d2, .PLOr [d1,
              nextDelta (.release (f1 :: f2 :: rest)) i true]], ?_, ?_⟩
            · simp [LTLfDelta, hd1, hd2]
            · simp [isGround, isGroundList, hg1, hg2, nextDelta]
      | eventually f =>
          simp only [nnfWfB] at hwf
          obtain ⟨d, hd, hg⟩ := ih f (by simp at hsz ⊢; omega) hwf i
          exact ⟨.PLOr [d, nextDelta (.eventually f) i true],
                 by simp [LTLfDelta, hd],
                 by simp [isGround, isGroundList, hg, nextDelta]⟩
      | always f =>
          simp only [nnfWfB] at hwf
          obtain ⟨d, hd, hg⟩ := ih f (by simp at hsz ⊢; omega) hwf i
          exact ⟨.PLAnd [d, weakNextDelta (.always f) i true],
                 by simp [LTLfDelta, hd],
                 by simp [isGround, isGroundList, hg, weakNextDelta]⟩

theorem truthPL_ground_aux : ∀ n,
    (∀ d, sizeOf d < n → isGround d = true → ∀ i,
      truthPL d i = some (groundEval d)) ∧
    (∀ l : List DeltaF, sizeOf l < n → isGroundList l = true → ∀ i,
      truthPLAll l i = some (groundEvalAll l) ∧
      truthPLAny l i = some (groundEvalAny l)) := by
  intro n
  induction n with
  | zero =>
      exact ⟨fun d h => absurd h (Nat.not_lt_zero _),
             fun l h => absurd h (Nat.not_lt_zero _)⟩
  | succ m ih =>
      constructor
      · intro d hsz hg i
        cases d with
        | PLTrue => simp [truthPL, groundEval]
        | PLFalse => simp [truthPL, groundEval]
        | PLAnd l =>
            simp only [isGround] at hg
            have := (ih.2 l (by simp at hsz; omega) hg i).1
            simp [truthPL, groundEval, this]
        | PLOr l =>
            simp only [isGround] at hg
            have := (ih.2 l (by simp at hsz; omega) hg i).2
            simp [truthPL, groundEval, this]
        | PLForm f => simp [isGround] at hg
      · intro l hsz hg i
        cases l with
        | nil => simp [truthPLAll, truthPLAny, groundEvalAll, groundEvalAny]
        | cons d ds =>
            simp only [isGroundList, Bool.and_eq_true] at hg
            have hd := ih.1 d (by simp at hsz; omega) hg.1 i
            have hds := ih.2 ds (by simp at hsz; omega) hg.2 i
            constructor
            · cases hb : groundEval d <;>
                simp [truthPLAll, groundEvalAll, hd, hb, hds.1]
            · cases hb : groundEval d <;>
                simp [truthPLAny, groundEvalAny, hd, hb, hds.2]

/-- C4: for every constructible formula and every interpretation I, the
public delta with epsilon true returns exactly PLTrue or PLFalse, and
replacing the PLFalseInterpretation the code evaluates the residual against
by any other interpretation j yields the same result, because the residual
of _delta on the NNF image with epsilon true is ground. -/
theorem delta_epsilon_collapse (φ : LTLf) (i j : Interp) (h : wfB φ = true) :
    (delta φ i true = some .PLTrue ∨ delta φ i true = some .PLFalse) ∧
    deltaCollapse j φ i true = delta φ i true := by
  have hn : nnfWfB (toNNF φ) = true :=
    (toNNF_nnfWf (sizeOf φ + 1) φ (by omega) h).1
  obtain ⟨d, hd, hg⟩ :=
    delta_eps_ground (sizeOf (toNNF φ) + 1) (toNNF φ) (by omega) hn i
  have ht : ∀ k : Interp, truthPL d k = some (groundEval d) :=
    fun k => (truthPL_ground_aux (sizeOf d + 1)).1 d (by omega) hg k
  constructor
  · cases hb : groundEval d
    · right; simp [delta, hd, ht falseInterp, hb]
    · left; simp [delta, hd, ht falseInterp, hb]
  · simp [delta, deltaCollapse, hd, ht j, ht falseInterp]

/-- C4, witness: the collapse evaluated on a concrete Until formula, with a
nonempty interpretation read and a different collapse interpretation. -/
theorem delta_epsilon_collapse_witness :
    (delta (.until [.atom (.psym "a"), .atom (.psym "b")]) ["a"] true =
        some .PLTrue ∨
     delta (.until [.atom (.psym "a"), .atom (.psym "b")]) ["a"] true =
        some .PLFalse) ∧
    deltaCollapse ["b"] (.until [.atom (.psym "a"), .atom (.psym "b")])
        ["a"] true =
      delta (.until [.atom (.psym "a"), .atom (.psym "b")]) ["a"] true :=
  delta_epsilon_collapse (.until [.atom (.psym "a"), .atom (.psym "b")])
    ["a"] ["b"] (by simp [wfB, wfList])

theorem memF_of_eq_mem {x y : BF} {l : List BF}
    (hxy : eqBF x y = true) (hy : y ∈ l) : memF x l = true := by
  induction l with
  | nil => cases hy
  | cons z zs ih =>
      rcases List.mem_cons.1 hy with rfl | hy'
      · simp [memF, hxy]
      · simp [memF, ih hy']

theorem memF_exists {x : BF} {l : List BF} (h : memF x l = true) :
    ∃ y, y ∈ l ∧ eqBF x y = true := by
  induction l with
  | nil => simp [memF] at h
  | cons z zs ih =>
      simp only [memF, Bool.or_eq_true] at h
      rcases h with h | h
      · exact ⟨z, by simp, h⟩
      · obtain ⟨y, hy, hxy⟩ := ih h
        exact ⟨y, by simp [hy], hxy⟩

theorem subsetF_iff {l1 l2 : List BF} :
    subsetF l1 l2 = true ↔ ∀ x ∈ l1, memF x l2 = true := by
  induction l1 with
  | nil => simp [subsetF]
  | cons x xs ih =>
      simp only [subsetF, Bool.and_eq_true, ih, List.mem_cons]
      constructor
      · rintro ⟨h1, h2⟩ z hz
        rcases hz with rfl | hz
        · exact h1
        · exact h2 z hz
      · intro h
        exact ⟨h x (Or.inl rfl), fun z hz => h z (Or.inr hz)⟩

theorem eqBF_refl : ∀ a : BF, eqBF a a = true := by
  have main : ∀ n a, sizeOf a < n → eqBF a a = true := by
    intro n
    induction n with
    | zero => intro a h; exact absurd h (Nat.not_lt_zero _)
    | succ m ih =>
        intro a hsz
        cases a with
        | atom s => simp [eqBF]
        | node t l =>
            have hsub : subsetF l l = true := by
              rw [subsetF_iff]
              intro x hx
              have hx' : sizeOf x < sizeOf l := List.sizeOf_lt_of_mem hx
              exact memF_of_eq_mem (ih x (by simp at hsz; omega)) hx
            simp [eqBF, hsub]
  exact fun a => main (sizeOf a + 1) a (by omega)

theorem eqBF_symm {a b : BF} (h : eqBF a b = true) : eqBF b a = true := by
  cases a <;> cases b <;> simp [eqBF] at h ⊢
  · exact h.symm
  · exact ⟨h.1.symm, h.2.2, h.2.1⟩

theorem eqBF_trans : ∀ a b c : BF,
    eqBF a b = true → eqBF b c = true → eqBF a c = true := by
  have main : ∀ n a b c, sizeOf a + sizeOf b + sizeOf c < n →
      eqBF a b = true → eqBF b c = true → eqBF a c = true := by
    intro n
    induction n with
    | zero => intro a b c h; exact absurd h (Nat.not_lt_zero _)
    | succ m ih =>
        intro a b c hsz hab hbc
        cases a <;> cases b <;> cases c <;> simp [eqBF] at hab hbc ⊢
        case atom.atom.atom => exact hab.trans hbc
        case node.node.node t1 l1 t2 l2 t3 l3 =>
          refine ⟨hab.1.trans hbc.1, ?_, ?_⟩
          · rw [subsetF_iff]
            intro x hx
            obtain ⟨y, hy, hxy⟩ := memF_exists (subsetF_iff.1 hab.2.1 x hx)
            obtain ⟨z, hz, hyz⟩ := memF_exists (subsetF_iff.1 hbc.2.1 y hy)
            have hx' : sizeOf x < sizeOf l1 := List.sizeOf_lt_of_mem hx
            have hy' : sizeOf y < sizeOf l2 := List.sizeOf_lt_of_mem hy
            have hz' : sizeOf z < sizeOf l3 := List.sizeOf_lt_of_mem hz
            exact memF_of_eq_mem (ih x y z (by simp at hsz; omega) hxy hyz) hz
          · rw [subsetF_iff]
            intro z hz
            obtain ⟨y, hy, hzy⟩ := memF_exists (subsetF_iff.1 hbc.2.2 z hz)
            obtain ⟨x, hx, hyx⟩ := memF_exists (subsetF_iff.1 hab.2.2 y hy)
            have hx' : sizeOf x < sizeOf l1 := List.sizeOf_lt_of_mem hx
            have hy' : sizeOf y < sizeOf l2 := List.sizeOf_lt_of_mem hy
            have hz' : sizeOf z < sizeOf l3 := List.sizeOf_lt_of_mem hz
            exact memF_of_eq_mem (ih z y x (by simp at hsz; omega) hzy hyx) hx
  exact fun a b c => main (sizeOf a + sizeOf b + sizeOf c + 1) a b c (by omega)

theorem removeAllF_of_not_mem {x : BF} {l : List BF} (h : memF x l = false) :
    removeAllF x l = l := by
  induction l with
  | nil => simp [removeAllF]
  | cons z zs ih =>
      have h' : eqBF x z = false ∧ memF x zs = false := by
        simpa [memF] using h
      have htail := ih h'.2
      simp only [removeAllF] at htail ⊢
      rw [List.filter_cons, h'.1]
      simp [htail]

theorem memF_removeAllF {x y : BF} (hxy : eqBF x y = false) :
    ∀ l : List BF, memF y (removeAllF x l) = memF y l := by
  intro l
  induction l with
  | nil => simp [removeAllF]
  | cons z zs ih =>
      by_cases hz : eqBF x z = true
      · have hyz : eqBF y z = false := by
          by_contra hyz'
          have hyz'' : eqBF y z = true := by
            simpa using hyz'
          have : eqBF x y = true :=
            eqBF_trans x z y hz (eqBF_symm hyz'')
          simp [this] at hxy
        simp [removeAllF, List.filter_cons, hz, memF, hyz] at ih ⊢
        exact ih
      · have hz' : eqBF x z = false := by simpa using hz
        simp [removeAllF, List.filter_cons, hz', memF] at ih ⊢
        rw [ih]

theorem setHashDedup_erase : ∀ (x : BF) (l : List BF),
    memF x l = true →
    (∀ y ∈ l, eqBF x y = true → hashBF x = hashBF y) →
    setHashDedup l = hashBF x + setHashDedup (removeAllF x l) := by
  intro x l
  induction l with
  | nil => intro h; simp [memF] at h
  | cons y ys ih =>
      intro hm hc
      by_cases hxy : eqBF x y = true
      · have hrm : removeAllF x (y :: ys) = removeAllF x ys := by
          simp [removeAllF, List.filter_cons, hxy]
        by_cases hyy : memF y ys = true
        · have hxys : memF x ys = true := by
            obtain ⟨y', hy', hyy'⟩ := memF_exists hyy
            exact memF_of_eq_mem (eqBF_trans x y y' hxy hyy') hy'
          have hrec := ih hxys (fun z hz hxz => hc z (by simp [hz]) hxz)
          simp [setHashDedup, hyy, hrm, hrec]
        · have hxys : memF x ys = false := by
            by_contra hx'
            have hx'' : memF x ys = true := by simpa using hx'
            obtain ⟨y'', hy'', hxy''⟩ := memF_exists hx''
            have hyy'' : eqBF y y'' = true :=
              eqBF_trans y x y'' (eqBF_symm hxy) hxy''
            exact hyy (memF_of_eq_mem hyy'' hy'')
          have hyy0 : memF y ys = false := by simpa using hyy
          have hry : removeAllF x ys = ys := removeAllF_of_not_mem hxys
          have hhxy : hashBF x = hashBF y := hc y (by simp) hxy
          simp [setHashDedup, hyy0, hrm, hry, hhxy]
      · have hxy' : eqBF x y = false := by simpa using hxy
        have hxM : memF x ys = true := by
          simpa [memF, hxy'] using hm
        have hrm : removeAllF x (y :: ys) = y :: removeAllF x ys := by
          simp [removeAllF, List.filter_cons, hxy']
        have hmem := memF_removeAllF hxy' ys
        have hrec := ih hxM (fun z hz hxz => hc z (by simp [hz]) hxz)
        by_cases hyy : memF y ys = true
        · simp [setHashDedup, hyy, hrm, hmem, hrec]
        · have hyy0 : memF y ys = false := by simpa using hyy
          simp [setHashDedup, hyy0, hrm, hmem, hrec]
          omega

theorem setHashDedup_congr : ∀ (l1 l2 : List BF),
    (∀ x ∈ l1, ∀ y ∈ l2, eqBF x y = true → hashBF x = hashBF y) →
    subsetF l1 l2 = true → subsetF l2 l1 = true →
    setHashDedup l1 = setHashDedup l2 := by
  intro l1
  induction l1 with
  | nil =>
      intro l2 hc h12 h21
      cases l2 with
      | nil => rfl
      | cons z zs => simp [subsetF, memF] at h21
  | cons x xs ih =>
      intro l2 hc h12 h21
      have h12' := subsetF_iff.1 h12
      have hx2 : memF x l2 = true := h12' x (by simp)
      have hxs2 : subsetF xs l2 = true :=
        subsetF_iff.2 (fun z hz => h12' z (by simp [hz]))
      by_cases hm : memF x xs = true
      · have h21' : subsetF l2 xs = true := by
          rw [subsetF_iff]
          intro z hz
          have hzx := subsetF_iff.1 h21 z hz
          have hzx' : eqBF z x = true ∨ memF z xs = true := by
            simpa [memF, Bool.or_eq_true] using hzx
          rcases hzx' with hzx' | hzx'
          · obtain ⟨y', hy', hxy'⟩ := memF_exists hm
            exact memF_of_eq_mem (eqBF_trans z x y' hzx' hxy') hy'
          · exact hzx'
        have hrec := ih l2 (fun a ha y hy => hc a (by simp [ha]) y hy) hxs2 h21'
        simp [setHashDedup, hm, hrec]
      · have hm0 : memF x xs = false := by simpa using hm
        have hcx : ∀ y ∈ l2, eqBF x y = true → hashBF x = hashBF y :=
          fun y hy => hc x (by simp) y hy
        have herase := setHashDedup_erase x l2 hx2 hcx
        have hsub1 : subsetF xs (removeAllF x l2) = true := by
          rw [subsetF_iff]
          intro z hz
          obtain ⟨w, hw, hzw⟩ := memF_exists (subsetF_iff.1 hxs2 z hz)
          have hxw : eqBF x w = false := by
            by_contra hxw'
            have hxw'' : eqBF x w = true := by simpa using hxw'
            have hxz : eqBF x z = true :=
              eqBF_trans x w z hxw'' (eqBF_symm hzw)
            simp [memF_of_eq_mem hxz hz] at hm0
          have hwf : w ∈ removeAllF x l2 := by
            simp [removeAllF, List.mem_filter, hw, hxw]
          exact memF_of_eq_mem hzw hwf
        have hsub2 : subsetF (removeAllF x l2) xs = true := by
          rw [subsetF_iff]
          intro z hz
          have hz2 : z ∈ l2 ∧ (! eqBF x z) = true := by
            simpa [removeAllF, List.mem_filter] using hz
          have hzl := subsetF_iff.1 h21 z hz2.1
          have hzl' : eqBF z x = true ∨ memF z xs = true := by
            simpa [memF, Bool.or_eq_true] using hzl
          rcases hzl' with hzx | hzxs
          · have hxz : eqBF x z = true := eqBF_symm hzx
            simp [hxz] at hz2
          · exact hzxs
        have hC : ∀ a ∈ xs, ∀ y ∈ removeAllF x l2,
            eqBF a y = true → hashBF a = hashBF y := by
          intro a ha y hy hay
          have hy2 : y ∈ l2 ∧ (! eqBF x y) = true := by
            simpa [removeAllF, List.mem_filter] using hy
          exact hc a (by simp [ha]) y hy2.1 hay
        have hrec := ih (removeAllF x l2) hC hsub1 hsub2
        simp [setHashDedup, hm0, herase, hrec]

theorem eqBF_hash_main : ∀ n (a b : BF), sizeOf a + sizeOf b < n →
    eqBF a b = true → hashBF a = hashBF b := by
  intro n
  induction n with
  | zero => intro a b h; exact absurd h (Nat.not_lt_zero _)
  | succ m ih =>
      intro a b hsz hab
      cases a <;> cases b <;> simp [eqBF] at hab
      case atom.atom s u => simp [hashBF, hab]
      case node.node t1 l1 t2 l2 =>
        have hC : ∀ x ∈ l1, ∀ y ∈ l2, eqBF x y = true → hashBF x = hashBF y := by
          intro x hx y hy hxy
          have hx' : sizeOf x < sizeOf l1 := List.sizeOf_lt_of_mem hx
          have hy' : sizeOf y < sizeOf l2 := List.sizeOf_lt_of_mem hy
          exact ih x y (by simp at hsz; omega) hxy
        have hset := setHashDedup_congr l1 l2 hC hab.2.1 hab.2.2
        simp [hashBF, hab.1, hset]

/-- C10: for all formulas, Python equality implies equal hashes; both are
derived from the same _members canonical form, with the frozenset of
children of an idempotent commutative operator hashed as a commutative
duplicate-insensitive combination, so every constructor preserves the
consistency the macro-state set identity relies on. -/
theorem eq_implies_hash_eq (φ ψ : BF) (h : eqBF φ ψ = true) :
    hashBF φ = hashBF ψ :=
  eqBF_hash_main (sizeOf φ + sizeOf ψ + 1) φ ψ (by omega) h

/-- C10, witness: two equal And nodes with swapped children have equal
hashes. -/
theorem eq_implies_hash_eq_witness :
    eqBF (mkNode "&" [.atom "a", .atom "b"])
         (mkNode "&" [.atom "b", .atom "a"]) = true ∧
    hashBF (mkNode "&" [.atom "a", .atom "b"]) =
      hashBF (mkNode "&" [.atom "b", .atom "a"]) := by
  have he : eqBF (mkNode "&" [.atom "a", .atom "b"])
      (mkNode "&" [.atom "b", .atom "a"]) = true := by
    simp [mkNode, popup, eqBF, subsetF, memF, eqBF_refl]
  exact ⟨he, eq_implies_hash_eq _ _ he⟩

theorem popup_nil (t : String) : popup t [] = [] := by
  simp [popup]

theorem popup_cons_nontag {t : String} {x : BF} (hx : isTag t x = false)
    (cs : List BF) : popup t (x :: cs) = x :: popup t cs := by
  cases x with
  | atom s => simp [popup]
  | node u gs =>
      have hu : ¬ u = t := by simpa [isTag] using hx
      simp [popup, hu]

/-- C9: constructing a binary operator flattens nested children of the same
type, so And of And(a, b) with c stores the child tuple a, b, c and is equal
to And(a, b, c); and equality for the commutative operator is order- and
duplicate-insensitive: And(a, b) equals And(b, a), and And(a, a, b) equals
And(a, b). Children that are themselves nodes of the operator under
construction would be flattened further, hence the three tag hypotheses. -/
theorem binop_flatten_comm_equality (t : String) (a b c : BF)
    (ha : isTag t a = false) (hb : isTag t b = false)
    (hc : isTag t c = false) :
    childrenBF (mkNode t [mkNode t [a, b], c]) = [a, b, c] ∧
    eqBF (mkNode t [mkNode t [a, b], c]) (mkNode t [a, b, c]) = true ∧
    eqBF (mkNode t [a, b]) (mkNode t [b, a]) = true ∧
    eqBF (mkNode t [a, a, b]) (mkNode t [a, b]) = true := by
  have hab : popup t [a, b] = [a, b] := by
    rw [popup_cons_nontag ha, popup_cons_nontag hb, popup_nil]
  have hba : popup t [b, a] = [b, a] := by
    rw [popup_cons_nontag hb, popup_cons_nontag ha, popup_nil]
  have habc : popup t [a, b, c] = [a, b, c] := by
    rw [popup_cons_nontag ha, popup_cons_nontag hb, popup_cons_nontag hc,
        popup_nil]
  have haab : popup t [a, a, b] = [a, a, b] := by
    rw [popup_cons_nontag ha, popup_cons_nontag ha, popup_cons_nontag hb,
        popup_nil]
  have hflat : popup t (BF.node t [a, b] :: [c]) = [a, b, c] := by
    simp [popup, hab, popup_cons_nontag hc, popup_nil]
  have e1 : mkNode t [mkNode t [a, b], c] = BF.node t [a, b, c] := by
    simp only [mkNode, hab]
    rw [hflat]
  have e2 : mkNode t [a, b, c] = BF.node t [a, b, c] := by
    simp only [mkNode]; rw [habc]
  refine ⟨?_, ?_, ?_, ?_⟩
  · rw [e1]; rfl
  · rw [e1, e2]; exact eqBF_refl _
  · simp only [mkNode]
    rw [hab, hba]
    simp [eqBF, subsetF, memF, eqBF_refl]
  · simp only [mkNode]
    rw [haab, hab]
    simp [eqBF, subsetF, memF, eqBF_refl]

/-- C9, witness: the flattening and commutative equalities evaluated on
three distinct atoms under the operator tag of And. -/
theorem binop_flatten_comm_equality_witness :
    childrenBF (mkNode "&" [mkNode "&" [.atom "a", .atom "b"], .atom "c"]) =
      [.atom "a", .atom "b", .atom "c"] ∧
    eqBF (mkNode "&" [mkNode "&" [.atom "a", .atom "b"], .atom "c"])
         (mkNode "&" [.atom "a", .atom "b", .atom "c"]) = true ∧
    eqBF (mkNode "&" [.atom "a", .atom "b"])
         (mkNode "&" [.atom "b", .atom "a"]) = true ∧
    eqBF (mkNode "&" [.atom "a", .atom "a", .atom "b"])
         (mkNode "&" [.atom "a", .atom "b"]) = true :=
  binop_flatten_comm_equality "&" (.atom "a") (.atom "b") (.atom "c")
    rfl rfl rfl

end Flloat
